import Mathlib

/-!
Verification of the proxy-lab LRU web-object cache (src/cache.c, src/proxy.c).

The cache is a doubly linked list of entries (url key, web_object bytes,
block_size), most-recently-used at the head (global pointer `cache`), with a
running byte total `cache_size`.  We embed it shallowly: the linked list
becomes a Lean `List Entry` with the head of the list as the head of the C
list; the pointer surgery of `move_to_head` (cache.c:29-61) corresponds to
moving the found element to the front of the list; `evict_entries`
(cache.c:68-99) walks to the tail and frees entries back-to-front, and its
unconditional `e->prev->next = NULL` is a null-pointer dereference whenever
the entry being freed is the head, which we model by returning `none`.
Machine integers (`ssize_t`) are modelled as `Int`.
-/

set_option maxRecDepth 4000

namespace ProxyLab

/-- MAX_CACHE_SIZE from cache.c:21 / proxy.c:49. -/
def MAX_CACHE_SIZE : Int := 1024 * 1024

/-- MAX_OBJECT_SIZE from cache.c:22 / proxy.c:50. -/
def MAX_OBJECT_SIZE : Int := 100 * 1024

/-- One cache entry (struct Cache, cache.h:7-13).  The prev/next pointers are
represented by the entry's position in the surrounding list. -/
structure Entry where
  url : String
  web_object : List Nat
  block_size : Int
deriving DecidableEq, Repr

/-- The global cache state: the list headed by the global `cache` pointer
(head = most recently used) together with the global `cache_size`
(cache.h:16-17). -/
structure CacheState where
  entries : List Entry
  cache_size : Int
deriving DecidableEq, Repr

/-- Sum of the `block_size` fields of a list of entries. -/
def sumSizes (l : List Entry) : Int := (l.map Entry.block_size).sum

/-- The linear scan of get_web_object (cache.c:108-117): first entry whose
url compares equal (strcmp == 0). -/
def findEntry (u : String) : List Entry → Option Entry
  | [] => none
  | e :: rest => if e.url = u then some e else findEntry u rest

/-- Remove the first entry whose url is `u` (the unlink half of
move_to_head, cache.c:37-58). -/
def removeFirst (u : String) : List Entry → List Entry
  | [] => []
  | e :: rest => if e.url = u then rest else e :: removeFirst u rest

/-- get_web_object (cache.c:107-119): scan for the url; on a hit, move the
found entry to the front of the list (move_to_head, cache.c:29-61: the
head case leaves the list unchanged, and the middle and back cases both
unlink the node and relink it at the head, which on the list model is
`e :: removeFirst u entries`; for the head itself this is again the
unchanged list) and return the entry; on a miss return NULL and leave the
store untouched. -/
def get_web_object (u : String) (s : CacheState) : Option Entry × CacheState :=
  match findEntry u s.entries with
  | none => (none, s)
  | some e => (some e, ⟨e :: removeFirst u s.entries, s.cache_size⟩)

/-- The do-while loop of evict_entries (cache.c:80-93), acting on the
REVERSED entry list (first element = current tail, where the walk at
cache.c:74-76 ends).  Each iteration frees the current tail and executes
`e->prev->next = NULL`; when the freed entry is the list head its `prev`
is NULL and the store dereferences a null pointer, modelled as `none`
(this also covers `cache == NULL` on entry, where `e->next` faults). -/
def evict_loop (space : Int) : Int → List Entry → Option (List Entry × Int)
  | _, [] => none
  | freed, e :: rest =>
    if rest = [] then none
    else if freed + e.block_size < space then evict_loop space (freed + e.block_size) rest
    else some (rest, freed + e.block_size)

/-- evict_entries (cache.c:68-99): free LRU tail entries until `freed`
reaches `space`, then subtract the freed bytes from cache_size. -/
def evict_entries (space : Int) (s : CacheState) : Option CacheState :=
  match evict_loop space 0 s.entries.reverse with
  | none => none
  | some (restRev, freed) => some ⟨restRev.reverse, s.cache_size - freed⟩

/-- write_cache (cache.c:129-167).  The duplicate check (cache.c:132) is a
call to get_web_object, so a present key is promoted to the head before the
early return.  Otherwise, if the new block does not fit
(`cache_size + block_size > MAX_CACHE_SIZE`, cache.c:137) evict_entries is
called with the NEW BLOCK'S size as the space to free (cache.c:138); then
cache_size is bumped and the new entry, holding a copy of the first
block_size bytes of the object (memcpy, cache.c:150), is linked in at the
head (cache.c:156-165).  There is no check against MAX_OBJECT_SIZE. -/
def write_cache (u : String) (v : List Nat) (n : Int) (s : CacheState) : Option CacheState :=
  match findEntry u s.entries with
  | some e => some ⟨e :: removeFirst u s.entries, s.cache_size⟩
  | none =>
    match (if s.cache_size + n > MAX_CACHE_SIZE then evict_entries n s else some s) with
    | none => none
    | some s2 => some ⟨⟨u, v.take n.toNat, n⟩ :: s2.entries, s2.cache_size + n⟩

/-- init_cache (cache.c:172-176): empty list, zero bytes. -/
def init_cache : CacheState := ⟨[], 0⟩

/-- One completed store operation: a lookup (get_web_object, discarding the
returned pointer) or an insert (write_cache). -/
inductive Op where
  | lookup (u : String)
  | insert (u : String) (v : List Nat) (n : Int)
deriving DecidableEq, Repr

/-- Apply one operation; `none` models the crash inside evict_entries. -/
def applyOp (s : CacheState) : Op → Option CacheState
  | Op.lookup u => some (get_web_object u s).2
  | Op.insert u v n => write_cache u v n s

/-- Run a sequence of operations from a starting state. -/
def runOps : CacheState → List Op → Option CacheState
  | s, [] => some s
  | s, op :: ops =>
    match applyOp s op with
    | none => none
    | some s' => runOps s' ops

/-- An operation with an admissible size: the dispatcher (proxy.c:383-386)
only calls write_cache with `0 ≤ obj_size ≤ MAX_OBJECT_SIZE`. -/
def admissibleOp : Op → Bool
  | Op.lookup _ => true
  | Op.insert _ _ n => decide (0 ≤ n) && decide (n ≤ MAX_OBJECT_SIZE)

/-- A store state reachable from the empty store by completed admissible
operations. -/
def Reachable (s : CacheState) : Prop :=
  ∃ ops : List Op, ops.all admissibleOp = true ∧ runOps init_cache ops = some s

/-- The documented store invariants (spec data model): cache_size equals the
sum of the entry sizes, stays within MAX_CACHE_SIZE, and every entry size
lies in [0, MAX_OBJECT_SIZE]. -/
abbrev CacheInv (s : CacheState) : Prop :=
  s.cache_size = sumSizes s.entries ∧ s.cache_size ≤ MAX_CACHE_SIZE ∧
    ∀ e ∈ s.entries, 0 ≤ e.block_size ∧ e.block_size ≤ MAX_OBJECT_SIZE

/-- A two-entry store used to refute the claim that a duplicate insert
leaves the recency order unchanged. -/
def sDup : CacheState := ⟨[⟨"a", [1], 1⟩, ⟨"b", [2], 1⟩], 2⟩

/-- A 19-entry store (nine 102400-byte entries followed by ten 10000-byte
tail entries, 1021600 bytes in total) on which write_cache over-evicts. -/
def sOver : CacheState :=
  ⟨[⟨"a1", [], 102400⟩, ⟨"a2", [], 102400⟩, ⟨"a3", [], 102400⟩, ⟨"a4", [], 102400⟩,
    ⟨"a5", [], 102400⟩, ⟨"a6", [], 102400⟩, ⟨"a7", [], 102400⟩, ⟨"a8", [], 102400⟩,
    ⟨"a9", [], 102400⟩,
    ⟨"b1", [], 10000⟩, ⟨"b2", [], 10000⟩, ⟨"b3", [], 10000⟩, ⟨"b4", [], 10000⟩,
    ⟨"b5", [], 10000⟩, ⟨"b6", [], 10000⟩, ⟨"b7", [], 10000⟩, ⟨"b8", [], 10000⟩,
    ⟨"b9", [], 10000⟩, ⟨"b10", [], 10000⟩], 1021600⟩

/-- A ten-entry full store (10 × 102400 = 1024000 bytes) used to witness
the eviction path. -/
def sFull : CacheState :=
  ⟨[⟨"c1", [], 102400⟩, ⟨"c2", [], 102400⟩, ⟨"c3", [], 102400⟩, ⟨"c4", [], 102400⟩,
    ⟨"c5", [], 102400⟩, ⟨"c6", [], 102400⟩, ⟨"c7", [], 102400⟩, ⟨"c8", [], 102400⟩,
    ⟨"c9", [], 102400⟩, ⟨"c10", [], 102400⟩], 1024000⟩

/-- The state write_cache actually produces on `sOver` for a 30000-byte
insert: the three tail entries b10, b9, b8 are gone. -/
def sOverAfter : CacheState :=
  ⟨[⟨"k", [], 30000⟩,
    ⟨"a1", [], 102400⟩, ⟨"a2", [], 102400⟩, ⟨"a3", [], 102400⟩, ⟨"a4", [], 102400⟩,
    ⟨"a5", [], 102400⟩, ⟨"a6", [], 102400⟩, ⟨"a7", [], 102400⟩, ⟨"a8", [], 102400⟩,
    ⟨"a9", [], 102400⟩,
    ⟨"b1", [], 10000⟩, ⟨"b2", [], 10000⟩, ⟨"b3", [], 10000⟩, ⟨"b4", [], 10000⟩,
    ⟨"b5", [], 10000⟩, ⟨"b6", [], 10000⟩, ⟨"b7", [], 10000⟩], 1021600⟩

/-- Pairwise-distinct urls (the store never holds two entries for one key,
because write_cache returns early on a hit of the duplicate check). -/
def keysUnique (l : List Entry) : Prop :=
  List.Pairwise (fun a b => a.url ≠ b.url) l

/-- Last-access stamps, newest first; a key's stamp is its first (most
recent) binding, 0 if it was never accessed. -/
def getStamp (st : List (String × Int)) (u : String) : Int :=
  match st with
  | [] => 0
  | (x, t) :: rest => if x = u then t else getStamp rest u

/-- The key whose recency an operation refreshes: a lookup refreshes its
key only on a hit (move_to_head fires only when the scan finds the url);
an insert always refreshes its key (a fresh insert links it at the head,
and a duplicate insert promotes it via the get_web_object duplicate
check). -/
def accessedKey (s : CacheState) : Op → Option String
  | Op.lookup u => if (findEntry u s.entries).isSome then some u else none
  | Op.insert u _ _ => some u

/-- A cache run instrumented with a logical clock and last-access
stamps. -/
structure Run where
  cs : CacheState
  stamps : List (String × Int)
  clock : Int
deriving DecidableEq, Repr

/-- Execute one operation on the instrumented state: the cache component
steps exactly by applyOp; the accessed key (if any) is stamped with the
current clock, and the clock advances. -/
def stepStamped (r : Run) (op : Op) : Option Run :=
  match applyOp r.cs op with
  | none => none
  | some s' =>
    some ⟨s',
      match accessedKey r.cs op with
      | some u => (u, r.clock) :: r.stamps
      | none => r.stamps,
      r.clock + 1⟩

/-- Run a list of operations on the instrumented state. -/
def runStamped : Run → List Op → Option Run
  | r, [] => some r
  | r, op :: ops =>
    match stepStamped r op with
    | none => none
    | some r' => runStamped r' ops

/-- The instrumented initial state: empty store, no stamps, clock 0. -/
def initRun : Run := ⟨init_cache, [], 0⟩

/-- Invariant tying the store to the access history: keys are unique,
every present entry was last accessed before the current clock, and the
entry list is strictly sorted by last-access stamp, newest first. -/
def RunInv (r : Run) : Prop :=
  keysUnique r.cs.entries ∧
    (∀ x ∈ r.cs.entries, getStamp r.stamps x.url < r.clock) ∧
    List.Pairwise
      (fun a b => getStamp r.stamps b.url < getStamp r.stamps a.url) r.cs.entries

/-- Total byte length of a chunk sequence, as the ssize_t accumulator
obj_size of connect_server sees it. -/
def totalLen (chunks : List (List Nat)) : Int :=
  (chunks.map (fun c => (c.length : Int))).sum

/-- Whether the EPIPE break fires: the scheduled failing write index lands
on one of the chunks actually read (indices counted from `i`). -/
def hits (epipeAt : Option Nat) (i len : Nat) : Bool :=
  match epipeAt with
  | none => false
  | some j => decide (i ≤ j ∧ j < i + len)

/-- epipeTriggered for a whole relay starting at chunk index 0. -/
def epipeTriggered (chunks : List (List Nat)) (epipeAt : Option Nat) : Bool :=
  hits epipeAt 0 chunks.length

/-- Result of the relay loop of connect_server (proxy.c:367-381):
the chunks successfully written to the client, the final obj_size, the
bytes accumulated in the local object buffer, and whether the loop broke
on EPIPE. -/
structure RelayResult where
  relayed : List (List Nat)
  obj_size : Int
  object : List Nat
  epipe : Bool
deriving DecidableEq, Repr

/-- The while loop of connect_server (proxy.c:367-381).  `chunks` are the
successive successful rio_readnb reads (the loop ends on the 0-length EOF
read); `epipeAt` is the index, if any, at which rio_writen to the client
fails with errno EPIPE.  Each iteration first copies the chunk into the
local buffer if the running total would stay within MAX_OBJECT_SIZE
(proxy.c:371-372), then adds the chunk length to obj_size unconditionally
(proxy.c:374), then writes to the client, breaking on EPIPE
(proxy.c:376-380). -/
def relay (epipeAt : Option Nat) : Nat → Int → List Nat → List (List Nat) → RelayResult
  | _, sz, obj, [] => ⟨[], sz, obj, false⟩
  | i, sz, obj, buf :: rest =>
    if epipeAt = some i then
      ⟨[], sz + (buf.length : Int),
        if sz + (buf.length : Int) ≤ MAX_OBJECT_SIZE then obj ++ buf else obj, true⟩
    else
      let r := relay epipeAt (i + 1) (sz + (buf.length : Int))
        (if sz + (buf.length : Int) ≤ MAX_OBJECT_SIZE then obj ++ buf else obj) rest
      ⟨buf :: r.relayed, r.obj_size, r.object, r.epipe⟩

/-- What a miss-path fetch delivers: the chunks relayed to the client and
the write_cache call, if any (object bytes and obj_size). -/
structure FetchOutcome where
  relayed : List (List Nat)
  cached : Option (List Nat × Int)
deriving DecidableEq, Repr

/-- connect_server (proxy.c:347-392), abstracting the sockets: if
open_clientfd fails the function returns with no relay and no cache call
(proxy.c:358-362); otherwise it relays, and afterwards calls
write_cache(url, object, obj_size) exactly when obj_size ≤ MAX_OBJECT_SIZE
and errno is not EPIPE (proxy.c:383-388). -/
def connect_server (connectOk : Bool) (chunks : List (List Nat))
    (epipeAt : Option Nat) : FetchOutcome :=
  if connectOk = false then ⟨[], none⟩
  else
    let r := relay epipeAt 0 0 [] chunks
    ⟨r.relayed,
      if r.obj_size ≤ MAX_OBJECT_SIZE ∧ r.epipe = false then some (r.object, r.obj_size)
      else none⟩

/-- One atomic action of a handler thread.  lock/unlock are
pthread_mutex_lock/unlock on cache_mutex (proxy.c:165-167, 385-387);
doLookup is the locked get_web_object of forward_request (proxy.c:166);
doInsert is the locked write_cache of connect_server (proxy.c:386); serve
is the UNLOCKED rio_writen of serve_cache (proxy.c:189), reading through
the entry pointer obtained by the earlier doLookup. -/
inductive PAct where
  | lock
  | unlock
  | doLookup (u : String)
  | doInsert (u : String) (v : List Nat) (n : Int)
  | serve
deriving DecidableEq, Repr

/-- Global state of the concurrent system: the mutex owner, the shared
store, the urls of entries already free()d by eviction, each thread's
saved entry pointer (identified by its url, unique per allocation here),
whether some serve read freed memory, and each thread's remaining
program. -/
structure Sys where
  lockHolder : Option Nat
  store : CacheState
  freedUrls : List String
  ptrs : List (Option String)
  uaf : Bool
  progs : List (List PAct)
deriving DecidableEq, Repr

/-- Urls of the entries an insert freed: the old entries no longer present
(evict_entries frees web_object, url and the node, cache.c:89-91). -/
def evictedUrls (old new : CacheState) : List String :=
  (old.entries.filter (fun e => !(new.entries.contains e))).map Entry.url

/-- Interleaving semantics: thread `t` executes the next action of its
program if that action is enabled.  Store actions require holding the
mutex (they sit between lock and unlock in the handler code); serve does
not — serve_cache runs after the unlock at proxy.c:167. -/
def enabledStep (s : Sys) (t : Nat) : Option Sys :=
  match s.progs.get? t with
  | none => none
  | some [] => none
  | some (act :: rest) =>
    match act with
    | PAct.lock =>
      match s.lockHolder with
      | none => some { s with lockHolder := some t, progs := s.progs.set t rest }
      | some _ => none
    | PAct.unlock =>
      if s.lockHolder = some t then
        some { s with lockHolder := none, progs := s.progs.set t rest }
      else none
    | PAct.doLookup u =>
      if s.lockHolder = some t then
        some { s with
               store := (get_web_object u s.store).2,
               ptrs := s.ptrs.set t ((get_web_object u s.store).1.map Entry.url),
               progs := s.progs.set t rest }
      else none
    | PAct.doInsert u v n =>
      if s.lockHolder = some t then
        match write_cache u v n s.store with
        | none => none
        | some st' =>
          some { s with
                 store := st',
                 freedUrls := s.freedUrls ++ evictedUrls s.store st',
                 progs := s.progs.set t rest }
      else none
    | PAct.serve =>
      match s.ptrs.get? t with
      | some (some u) =>
        some { s with
               uaf := s.uaf || s.freedUrls.contains u,
               progs := s.progs.set t rest }
      | _ => some { s with progs := s.progs.set t rest }

/-- All states one step away (any thread takes its enabled action). -/
def stepAll (s : Sys) : List Sys :=
  (List.range s.progs.length).filterMap (enabledStep s)

/-- Reachability in the interleaving semantics. -/
inductive SysReach (s0 : Sys) : Sys → Prop where
  | refl : SysReach s0 s0
  | step {s s' : Sys} {t : Nat} :
      SysReach s0 s → enabledStep s t = some s' → SysReach s0 s'

/-- Execute a concrete schedule (list of thread ids). -/
def execSched : List Nat → Sys → Option Sys
  | [], s => some s
  | t :: ts, s =>
    match enabledStep s t with
    | none => none
    | some s' => execSched ts s'

/-- Append the elements of `xs` not already present. -/
def addNew (acc xs : List Sys) : List Sys :=
  xs.foldl (fun a x => if x ∈ a then a else a ++ [x]) acc

/-- One breadth-first expansion of a state list. -/
def expand (acc : List Sys) : List Sys := addNew acc (acc.flatMap stepAll)

/-- Iterated expansion. -/
def iterExpand : Nat → List Sys → List Sys
  | 0, acc => acc
  | Nat.succ m, acc => iterExpand m (expand acc)

/-- The hit-serving handler of forward_request (proxy.c:164-171): lock,
get_web_object, unlock, then serve_cache outside the lock. -/
def progA : List PAct := [PAct.lock, PAct.doLookup "k", PAct.unlock, PAct.serve]

/-- The miss-path inserting handler of connect_server (proxy.c:383-388):
lock, write_cache, unlock. -/
def progB : List PAct := [PAct.lock, PAct.doInsert "m" [2] 1, PAct.unlock]

/-- Two-handler system on a one-entry store, for the mutual-exclusion
theorem. -/
def sysAB : Sys := ⟨none, ⟨[⟨"k", [1], 1⟩], 1⟩, [], [none, none], false, [progA, progB]⟩

/-- Every reachable state of the two-handler system, by exhaustive
exploration (the system quiesces within seven steps). -/
def reachAB : List Sys := iterExpand 9 [sysAB]

/-- Thread 0 (the hit handler) is inside its critical section: it has
executed lock (3 actions remain) or the lookup (2 remain) but not yet
unlock. -/
abbrev inCS_A (s : Sys) : Prop :=
  (s.progs.get? 0).map List.length = some 3 ∨ (s.progs.get? 0).map List.length = some 2

/-- Thread 1 (the inserting handler) is inside its critical section: it
has executed lock (2 actions remain) or the insert (1 remains) but not
yet unlock. -/
abbrev inCS_B (s : Sys) : Prop :=
  (s.progs.get? 1).map List.length = some 2 ∨ (s.progs.get? 1).map List.length = some 1

/-- The two critical sections never overlap. -/
abbrev MutexOk (s : Sys) : Prop := ¬(inCS_A s ∧ inCS_B s)

/-- Store for the use-after-free trace: "k" (10000 bytes, the entry the hit
handler will serve) plus ten 102400-byte entries, 1034000 bytes total. -/
def storeUAF : CacheState :=
  ⟨[⟨"k", [7], 10000⟩,
    ⟨"j1", [], 102400⟩, ⟨"j2", [], 102400⟩, ⟨"j3", [], 102400⟩, ⟨"j4", [], 102400⟩,
    ⟨"j5", [], 102400⟩, ⟨"j6", [], 102400⟩, ⟨"j7", [], 102400⟩, ⟨"j8", [], 102400⟩,
    ⟨"j9", [], 102400⟩, ⟨"j10", [], 102400⟩], 1034000⟩

/-- A reader handler thread that serves ten other uris in succession,
pushing "k" back to the tail. -/
def progC : List PAct :=
  [PAct.lock, PAct.doLookup "j1", PAct.unlock,
   PAct.lock, PAct.doLookup "j2", PAct.unlock,
   PAct.lock, PAct.doLookup "j3", PAct.unlock,
   PAct.lock, PAct.doLookup "j4", PAct.unlock,
   PAct.lock, PAct.doLookup "j5", PAct.unlock,
   PAct.lock, PAct.doLookup "j6", PAct.unlock,
   PAct.lock, PAct.doLookup "j7", PAct.unlock,
   PAct.lock, PAct.doLookup "j8", PAct.unlock,
   PAct.lock, PAct.doLookup "j9", PAct.unlock,
   PAct.lock, PAct.doLookup "j10", PAct.unlock]

/-- An inserting handler whose 30000-byte insert triggers eviction of the
tail (which by then is "k"). -/
def progB2 : List PAct := [PAct.lock, PAct.doInsert "new" [] 30000, PAct.unlock]

/-- Three-handler system for the use-after-free trace. -/
def sysUAF : Sys :=
  ⟨none, storeUAF, [], [none, none, none], false, [progA, progC, progB2]⟩

/-- The interleaving: the hit handler looks up "k" and unlocks; the reader
promotes j1..j10; the inserter evicts (freeing "k"); then the hit handler
serves from its saved pointer. -/
def schedUAF : List Nat :=
  [0, 0, 0] ++ List.replicate 30 1 ++ [2, 2, 2] ++ [0]

lemma sumSizes_nil : sumSizes [] = 0 := rfl

lemma sumSizes_cons (e : Entry) (l : List Entry) :
    sumSizes (e :: l) = e.block_size + sumSizes l := by
  simp [sumSizes]

lemma sumSizes_append (l1 l2 : List Entry) :
    sumSizes (l1 ++ l2) = sumSizes l1 + sumSizes l2 := by
  simp [sumSizes]

lemma sumSizes_reverse (l : List Entry) : sumSizes l.reverse = sumSizes l := by
  unfold sumSizes
  rw [List.map_reverse, List.sum_reverse]

lemma sumSizes_tail_reverse (l : List Entry) :
    sumSizes l.reverse.tail = sumSizes l.dropLast := by
  rcases List.eq_nil_or_concat l with h | ⟨L, b, rfl⟩
  · simp [h]
  · simp [List.reverse_append, List.dropLast_concat, sumSizes_reverse]

lemma sumSizes_reverse_dropLast (h : Entry) (t : List Entry) :
    sumSizes ((h :: t).reverse.dropLast) = sumSizes t := by
  simp [List.reverse_cons, List.dropLast_concat, sumSizes_reverse]

lemma findEntry_some_decomp {u : String} {l : List Entry} {e : Entry}
    (h : findEntry u l = some e) :
    ∃ pre post, l = pre ++ e :: post ∧ e.url = u ∧ (∀ x ∈ pre, x.url ≠ u) ∧
      removeFirst u l = pre ++ post := by
  induction l with
  | nil => simp [findEntry] at h
  | cons a rest ih =>
    by_cases ha : a.url = u
    · rw [findEntry, if_pos ha] at h
      obtain rfl : a = e := by injection h
      exact ⟨[], rest, by simp, ha, by simp, by simp [removeFirst, ha]⟩
    · rw [findEntry, if_neg ha] at h
      obtain ⟨pre, post, hl, he, hpre, hrm⟩ := ih h
      refine ⟨a :: pre, post, by simp [hl], he, ?_, ?_⟩
      · intro x hx
        rcases List.mem_cons.mp hx with rfl | hx
        · exact ha
        · exact hpre x hx
      · simp [removeFirst, ha, hrm]

lemma findEntry_none_forall {u : String} {l : List Entry}
    (h : findEntry u l = none) : ∀ x ∈ l, x.url ≠ u := by
  induction l with
  | nil => simp
  | cons a rest ih =>
    by_cases ha : a.url = u
    · rw [findEntry, if_pos ha] at h; cases h
    · rw [findEntry, if_neg ha] at h
      intro x hx
      rcases List.mem_cons.mp hx with rfl | hx
      · exact ha
      · exact ih h x hx

lemma promote_facts {u : String} {l : List Entry} {e : Entry}
    (h : findEntry u l = some e) :
    sumSizes (e :: removeFirst u l) = sumSizes l ∧
      ∀ x ∈ e :: removeFirst u l, x ∈ l := by
  obtain ⟨pre, post, rfl, _, _, hrm⟩ := findEntry_some_decomp h
  constructor
  · rw [hrm, sumSizes_cons, sumSizes_append, sumSizes_append, sumSizes_cons]
    ring
  · intro x hx
    rw [hrm] at hx
    rcases List.mem_cons.mp hx with rfl | hx
    · simp
    · rcases List.mem_append.mp hx with hx | hx
      · exact List.mem_append.mpr (Or.inl hx)
      · exact List.mem_append.mpr (Or.inr (List.mem_cons.mpr (Or.inr hx)))

lemma evict_loop_spec {space f : Int} {rev r : List Entry} {fr : Int}
    (h : evict_loop space f rev = some (r, fr)) :
    ∃ pre, rev = pre ++ r ∧ pre ≠ [] ∧ r ≠ [] ∧ fr = f + sumSizes pre ∧
      space ≤ fr ∧ (f < space → f + sumSizes pre.dropLast < space) := by
  induction rev generalizing f with
  | nil => simp [evict_loop] at h
  | cons e rest ih =>
    rw [evict_loop] at h
    by_cases hrest : rest = []
    · rw [if_pos hrest] at h; cases h
    · rw [if_neg hrest] at h
      by_cases hlt : f + e.block_size < space
      · rw [if_pos hlt] at h
        obtain ⟨pre, hsplit, hpre, hr, hfr, hsp, hmin⟩ := ih h
        refine ⟨e :: pre, by simp [hsplit], by simp, hr, ?_, hsp, ?_⟩
        · rw [hfr, sumSizes_cons]; ring
        · intro _
          have hmin' := hmin hlt
          have hdl : (e :: pre).dropLast = e :: pre.dropLast := by
            cases pre with
            | nil => exact absurd rfl hpre
            | cons p ps => rfl
          rw [hdl, sumSizes_cons]
          linarith
      · rw [if_neg hlt] at h
        obtain ⟨rfl, rfl⟩ : rest = r ∧ f + e.block_size = fr := by
          constructor <;> injection h with h1 <;> injection h1
        refine ⟨[e], by simp, by simp, hrest, by simp [sumSizes_cons, sumSizes_nil], ?_, ?_⟩
        · exact not_lt.mp hlt
        · intro h0; simpa [sumSizes_nil] using h0

lemma evict_loop_isSome {space f : Int} {rev : List Entry}
    (h2 : 2 ≤ rev.length) (hnn : ∀ e ∈ rev, 0 ≤ e.block_size)
    (hbig : space ≤ f + sumSizes rev.dropLast) :
    (evict_loop space f rev).isSome := by
  induction rev generalizing f with
  | nil => simp at h2
  | cons e rest ih =>
    have hrest : rest ≠ [] := by
      intro hh; rw [hh] at h2; simp at h2
    rw [evict_loop, if_neg hrest]
    by_cases hlt : f + e.block_size < space
    · rw [if_pos hlt]
      cases rest with
      | nil => exact absurd rfl hrest
      | cons e2 rest2 =>
        cases rest2 with
        | nil =>
          exfalso
          have : (e :: [e2]).dropLast = [e] := rfl
          rw [this, sumSizes_cons, sumSizes_nil] at hbig
          linarith
        | cons e3 rest3 =>
          apply ih
          · simp
          · intro x hx; exact hnn x (List.mem_cons.mpr (Or.inr hx))
          · have : (e :: e2 :: e3 :: rest3).dropLast =
                e :: (e2 :: e3 :: rest3).dropLast := rfl
            rw [this, sumSizes_cons] at hbig
            linarith
    · rw [if_neg hlt]; rfl

lemma evict_entries_spec {space : Int} {s s' : CacheState}
    (h : evict_entries space s = some s') :
    ∃ keep evicted, s.entries = keep ++ evicted ∧ keep ≠ [] ∧ evicted ≠ [] ∧
      s' = ⟨keep, s.cache_size - sumSizes evicted⟩ ∧ space ≤ sumSizes evicted ∧
      (0 < space → sumSizes evicted.tail < space) := by
  unfold evict_entries at h
  cases hev : evict_loop space 0 s.entries.reverse with
  | none => rw [hev] at h; cases h
  | some pr =>
    obtain ⟨r, fr⟩ := pr
    rw [hev] at h
    obtain rfl : (⟨r.reverse, s.cache_size - fr⟩ : CacheState) = s' := by injection h
    obtain ⟨pre, hsplit, hpre, hr, hfr, hsp, hmin⟩ := evict_loop_spec hev
    have hent : s.entries = r.reverse ++ pre.reverse := by
      have h1 : s.entries.reverse.reverse = (pre ++ r).reverse := by rw [hsplit]
      simpa [List.reverse_append] using h1
    have hfr' : fr = sumSizes pre.reverse := by
      rw [hfr, sumSizes_reverse]; ring
    refine ⟨r.reverse, pre.reverse, hent, by simpa using hr, by simpa using hpre,
      by rw [hfr'], by rw [← hfr'] ; exact hsp, ?_⟩
    intro h0
    have := hmin (by linarith)
    calc sumSizes pre.reverse.tail = sumSizes pre.dropLast := sumSizes_tail_reverse pre
      _ < space := by linarith

lemma evict_entries_isSome {n : Int} {s : CacheState} (hinv : CacheInv s)
    (htrig : MAX_CACHE_SIZE < s.cache_size + n) (hM : n ≤ MAX_OBJECT_SIZE) :
    (evict_entries n s).isSome := by
  obtain ⟨hsum, hle, hent⟩ := hinv
  cases hE : s.entries with
  | nil =>
    exfalso
    rw [hE] at hsum
    rw [sumSizes_nil] at hsum
    rw [MAX_CACHE_SIZE] at htrig
    rw [MAX_OBJECT_SIZE] at hM
    omega
  | cons h0 t =>
    have hh0 := hent h0 (by rw [hE]; simp)
    cases hT : t with
    | nil =>
      exfalso
      rw [hE, hT] at hsum
      rw [sumSizes_cons, sumSizes_nil] at hsum
      rw [MAX_CACHE_SIZE] at htrig
      rw [MAX_OBJECT_SIZE] at hM hh0
      omega
    | cons h1 t1 =>
      unfold evict_entries
      have hiss : (evict_loop n 0 s.entries.reverse).isSome := by
        apply evict_loop_isSome
        · rw [hE, hT]; simp
        · intro x hx
          exact (hent x (List.mem_reverse.mp hx)).1
        · rw [hE, sumSizes_reverse_dropLast]
          have hst : sumSizes t = s.cache_size - h0.block_size := by
            rw [hsum, hE, sumSizes_cons]; ring
          rw [hst]
          rw [MAX_CACHE_SIZE] at htrig
          rw [MAX_OBJECT_SIZE] at hM hh0
          omega
      cases hev : evict_loop n 0 s.entries.reverse with
      | none => simp [hev] at hiss
      | some pr => obtain ⟨a, b⟩ := pr; rfl

lemma write_cache_new_no_evict {s : CacheState} {u : String} {v : List Nat} {n : Int}
    (habs : findEntry u s.entries = none) (hfit : s.cache_size + n ≤ MAX_CACHE_SIZE) :
    write_cache u v n s =
      some ⟨⟨u, v.take n.toNat, n⟩ :: s.entries, s.cache_size + n⟩ := by
  unfold write_cache
  rw [habs, if_neg (not_lt.mpr hfit)]

lemma write_cache_new_evict {s : CacheState} {u : String} {v : List Nat} {n : Int}
    (hinv : CacheInv s) (habs : findEntry u s.entries = none)
    (htrig : MAX_CACHE_SIZE < s.cache_size + n) (hM : n ≤ MAX_OBJECT_SIZE) :
    ∃ keep evicted, s.entries = keep ++ evicted ∧ keep ≠ [] ∧ evicted ≠ [] ∧
      write_cache u v n s =
        some ⟨⟨u, v.take n.toNat, n⟩ :: keep, s.cache_size - sumSizes evicted + n⟩ ∧
      n ≤ sumSizes evicted ∧ sumSizes evicted.tail < n := by
  have hiss := evict_entries_isSome hinv htrig hM
  cases hev : evict_entries n s with
  | none => rw [hev] at hiss; cases hiss
  | some s2 =>
    obtain ⟨keep, evicted, hsplit, hk, he, hs2, hsp, hmin⟩ := evict_entries_spec hev
    have h0 : (0 : Int) < n := by
      have := hinv.2.1
      linarith
    refine ⟨keep, evicted, hsplit, hk, he, ?_, hsp, hmin h0⟩
    unfold write_cache
    rw [habs, if_pos htrig, hev, hs2]

lemma applyOp_inv {s s' : CacheState} {op : Op} (hinv : CacheInv s)
    (hadm : admissibleOp op = true) (h : applyOp s op = some s') : CacheInv s' := by
  obtain ⟨hsum, hle, hent⟩ := hinv
  cases op with
  | lookup u =>
    rw [applyOp] at h
    unfold get_web_object at h
    cases hf : findEntry u s.entries with
    | none =>
      rw [hf] at h
      obtain rfl : s = s' := by injection h
      exact ⟨hsum, hle, hent⟩
    | some e =>
      rw [hf] at h
      obtain rfl : (⟨e :: removeFirst u s.entries, s.cache_size⟩ : CacheState) = s' := by
        injection h
      obtain ⟨hs, hmem⟩ := promote_facts hf
      exact ⟨by rw [hs]; exact hsum, hle, fun x hx => hent x (hmem x hx)⟩
  | insert u v n =>
    rw [applyOp] at h
    rw [admissibleOp] at hadm
    rw [Bool.and_eq_true, decide_eq_true_eq, decide_eq_true_eq] at hadm
    cases hf : findEntry u s.entries with
    | some e =>
      unfold write_cache at h
      rw [hf] at h
      obtain rfl : (⟨e :: removeFirst u s.entries, s.cache_size⟩ : CacheState) = s' := by
        injection h
      obtain ⟨hs, hmem⟩ := promote_facts hf
      exact ⟨by rw [hs]; exact hsum, hle, fun x hx => hent x (hmem x hx)⟩
    | none =>
      by_cases htrig : MAX_CACHE_SIZE < s.cache_size + n
      · obtain ⟨keep, evicted, hsplit, _, _, heq, hsp, _⟩ :=
          write_cache_new_evict ⟨hsum, hle, hent⟩ hf htrig hadm.2
        rw [heq] at h
        obtain rfl : (⟨⟨u, v.take n.toNat, n⟩ :: keep,
            s.cache_size - sumSizes evicted + n⟩ : CacheState) = s' := by injection h
        have hks : sumSizes keep = s.cache_size - sumSizes evicted := by
          rw [hsum, hsplit, sumSizes_append]; ring
        refine ⟨?_, ?_, ?_⟩
        · show s.cache_size - sumSizes evicted + n =
            sumSizes (⟨u, v.take n.toNat, n⟩ :: keep)
          rw [sumSizes_cons, hks]; ring
        · show s.cache_size - sumSizes evicted + n ≤ MAX_CACHE_SIZE
          linarith
        · intro x hx
          rcases List.mem_cons.mp hx with rfl | hx
          · exact ⟨hadm.1, hadm.2⟩
          · exact hent x (by rw [hsplit]; exact List.mem_append.mpr (Or.inl hx))
      · rw [write_cache_new_no_evict hf (not_lt.mp htrig)] at h
        obtain rfl : (⟨⟨u, v.take n.toNat, n⟩ :: s.entries,
            s.cache_size + n⟩ : CacheState) = s' := by injection h
        refine ⟨?_, not_lt.mp htrig, ?_⟩
        · show s.cache_size + n = sumSizes (⟨u, v.take n.toNat, n⟩ :: s.entries)
          rw [sumSizes_cons, hsum]; ring
        · intro x hx
          rcases List.mem_cons.mp hx with rfl | hx
          · exact ⟨hadm.1, hadm.2⟩
          · exact hent x hx

lemma runOps_inv :
    ∀ (ops : List Op) (s s' : CacheState), CacheInv s → ops.all admissibleOp = true →
      runOps s ops = some s' → CacheInv s' := by
  intro ops
  induction ops with
  | nil =>
    intro s s' hinv _ hr
    rw [runOps] at hr
    obtain rfl : s = s' := by injection hr
    exact hinv
  | cons op ops ih =>
    intro s s' hinv hall hr
    rw [List.all_cons, Bool.and_eq_true] at hall
    rw [runOps] at hr
    cases hap : applyOp s op with
    | none => rw [hap] at hr; cases hr
    | some s1 =>
      rw [hap] at hr
      exact ih s1 s' (applyOp_inv hinv hall.1 hap) hall.2 hr

lemma init_cache_inv : CacheInv init_cache := by
  refine ⟨rfl, by decide, ?_⟩
  intro e he
  cases he

lemma reachable_inv {s : CacheState} (h : Reachable s) : CacheInv s := by
  obtain ⟨ops, hall, hrun⟩ := h
  exact runOps_inv ops init_cache s init_cache_inv hall hrun

/-- C2 counterexample: the store itself does not reject an oversized
insert.  From the empty store, write_cache with block_size 200000
(> MAX_OBJECT_SIZE = 102400) inserts the entry and changes the store,
refuting "the store operation itself rejects the call and leaves the store
unchanged". -/
theorem C2_counterexample :
    write_cache "k" [] 200000 init_cache =
      some ⟨[⟨"k", [], 200000⟩], 200000⟩ ∧
    MAX_OBJECT_SIZE < (200000 : Int) ∧
    write_cache "k" [] 200000 init_cache ≠ some init_cache := by
  refine ⟨rfl, by decide, by decide⟩

/-- C4: evict_entries cannot empty the store.  On a store holding entries
of sizes 1 and 2 (total 3), an insert of size 1048576 triggers eviction
demanding more space than all entries hold; after freeing the tail the
loop frees the head, executing `e->prev->next = NULL` with
`e->prev == NULL` (cache.c:84) — a null-pointer dereference, modelled as
`none` — instead of stopping with an emptied store as the claim states. -/
theorem C4_evict_crashes_on_emptying :
    write_cache "c" [] 1048576 ⟨[⟨"a", [], 1⟩, ⟨"b", [], 2⟩], 3⟩ = none := by
  rfl

/-- C5 counterexample: inserting a key that is already present is NOT a
complete no-op.  The duplicate check (cache.c:132) is a get_web_object
call, which promotes the found entry: on the store [a, b], write_cache of
the present key "b" reorders the store to [b, a], even though b's value,
size and the total byte count are unchanged. -/
theorem C5_counterexample :
    write_cache "b" [9, 9] 2 sDup =
      some ⟨[⟨"b", [2], 1⟩, ⟨"a", [1], 1⟩], 2⟩ ∧
    (⟨[⟨"b", [2], 1⟩, ⟨"a", [1], 1⟩], 2⟩ : CacheState).entries ≠ sDup.entries := by
  refine ⟨rfl, by decide⟩

/-- C5 (amended): inserting a key that is already present leaves the key's
entry (value and size) and the total byte count unchanged and preserves
the relative order of all other entries, but promotes the found entry to
the most-recently-used position. -/
theorem C5_amended_duplicate_insert_promotes (s : CacheState) (k : String)
    (v : List Nat) (n : Int) (e : Entry) (h : findEntry k s.entries = some e) :
    write_cache k v n s = some ⟨e :: removeFirst k s.entries, s.cache_size⟩ := by
  unfold write_cache
  rw [h]

/-- C5 amended witness: on the concrete store [a, b], a duplicate insert of
"b" yields exactly the promoted store with unchanged total. -/
theorem C5_amended_witness :
    write_cache "b" [7] 5 sDup =
      some ⟨⟨"b", [2], 1⟩ :: removeFirst "b" sDup.entries, sDup.cache_size⟩ :=
  C5_amended_duplicate_insert_promotes sDup "b" [7] 5 ⟨"b", [2], 1⟩ (by decide)

/-- C3 counterexample: write_cache does not stop evicting as soon as
`total_bytes + size ≤ MAX_CACHE_SIZE`.  On `sOver` (total 1021600), an
insert of 30000 bytes triggers eviction; evicting the single tail entry
b10 (10000 bytes) already re-establishes the bound
(1021600 + 30000 - 10000 = 1041600 ≤ 1048576), yet the code also evicts
b9 and b8, because evict_entries stops only when the freed bytes reach
the new block's size (cache.c:93 with space = block_size, cache.c:138). -/
theorem C3_counterexample :
    write_cache "k" [] 30000 sOver = some sOverAfter ∧
    sOver.cache_size + 30000 - 10000 ≤ MAX_CACHE_SIZE ∧
    findEntry "b9" sOver.entries = some ⟨"b9", [], 10000⟩ ∧
    findEntry "b9" sOverAfter.entries = none := by
  refine ⟨rfl, by decide, by decide, by decide⟩

/-- C1: for every store state reachable from the empty store by completed
insert and lookup operations with admissible sizes, cache_size equals the
sum of the sizes of all entries, and cache_size never exceeds
MAX_CACHE_SIZE. -/
theorem C1_total_bytes_invariant (s : CacheState) (h : Reachable s) :
    s.cache_size = sumSizes s.entries ∧ s.cache_size ≤ MAX_CACHE_SIZE :=
  ⟨(reachable_inv h).1, (reachable_inv h).2.1⟩

/-- C1 witness: the state reached by inserting a 2-byte object into the
empty store satisfies both invariant conjuncts. -/
theorem C1_witness :
    (⟨[⟨"a", [1, 2], 2⟩], 2⟩ : CacheState).cache_size =
        sumSizes (⟨[⟨"a", [1, 2], 2⟩], 2⟩ : CacheState).entries ∧
      (⟨[⟨"a", [1, 2], 2⟩], 2⟩ : CacheState).cache_size ≤ MAX_CACHE_SIZE :=
  C1_total_bytes_invariant ⟨[⟨"a", [1, 2], 2⟩], 2⟩
    ⟨[Op.insert "a" [1, 2] 2], by decide, by decide⟩

/-- C2 (amended): write_cache itself performs no size check (see
C2_counterexample), but in every store state reachable by the operations
the program actually issues — insert sizes in [0, MAX_OBJECT_SIZE], as
guaranteed by the caller's check at proxy.c:383 — no stored entry has a
size exceeding MAX_OBJECT_SIZE. -/
theorem C2_amended_no_oversized_entries (s : CacheState) (h : Reachable s) :
    ∀ e ∈ s.entries, e.block_size ≤ MAX_OBJECT_SIZE :=
  fun e he => ((reachable_inv h).2.2 e he).2

/-- C2 amended witness: the single entry of a concrete reachable state is
within MAX_OBJECT_SIZE. -/
theorem C2_amended_witness :
    (⟨"a", [1, 2], 2⟩ : Entry).block_size ≤ MAX_OBJECT_SIZE :=
  C2_amended_no_oversized_entries ⟨[⟨"a", [1, 2], 2⟩], 2⟩
    ⟨[Op.insert "a" [1, 2] 2], by decide, by decide⟩
    ⟨"a", [1, 2], 2⟩ (by decide)

/-- C3 (amended): on a store satisfying the data-model invariants, an
insert of an absent key whose size would push cache_size past
MAX_CACHE_SIZE evicts a nonempty suffix of the entry list (the
least-recently-used tail entries, in tail-to-head order), stopping as soon
as the freed bytes reach the NEW ENTRY'S SIZE (freed ≥ n, and one fewer
eviction would have freed < n); this re-establishes
cache_size + n ≤ MAX_CACHE_SIZE but may evict more entries than that
bound alone requires (see C3_counterexample). -/
theorem C3_amended_eviction (s : CacheState) (u : String) (v : List Nat) (n : Int)
    (hinv : CacheInv s) (habs : findEntry u s.entries = none)
    (hM : n ≤ MAX_OBJECT_SIZE) (htrig : MAX_CACHE_SIZE < s.cache_size + n) :
    ∃ keep evicted, s.entries = keep ++ evicted ∧ evicted ≠ [] ∧
      write_cache u v n s =
        some ⟨⟨u, v.take n.toNat, n⟩ :: keep, s.cache_size - sumSizes evicted + n⟩ ∧
      n ≤ sumSizes evicted ∧ sumSizes evicted.tail < n ∧
      s.cache_size - sumSizes evicted + n ≤ MAX_CACHE_SIZE := by
  obtain ⟨keep, evicted, hsplit, _, he, heq, hsp, hmin⟩ :=
    write_cache_new_evict hinv habs htrig hM
  have hle := hinv.2.1
  exact ⟨keep, evicted, hsplit, he, heq, hsp, hmin, by linarith⟩

/-- C3 amended witness: inserting a 102400-byte object into the full
ten-entry store evicts a tail suffix with the stated properties. -/
theorem C3_amended_witness :
    ∃ keep evicted, sFull.entries = keep ++ evicted ∧ evicted ≠ [] ∧
      write_cache "k" [] 102400 sFull =
        some ⟨⟨"k", List.take (102400 : Int).toNat [], 102400⟩ :: keep,
          sFull.cache_size - sumSizes evicted + 102400⟩ ∧
      (102400 : Int) ≤ sumSizes evicted ∧ sumSizes evicted.tail < 102400 ∧
      sFull.cache_size - sumSizes evicted + 102400 ≤ MAX_CACHE_SIZE :=
  C3_amended_eviction sFull "k" [] 102400 (by decide) (by decide) (by decide) (by decide)

/-- C7: on a store satisfying the data-model invariants, inserting an
absent key k with a value v of admissible length n and then immediately
looking k up returns exactly the entry holding the byte sequence v with
block_size n (write_cache links the new entry at the head, and
get_web_object finds it there). -/
theorem C7_roundtrip (s : CacheState) (k : String) (v : List Nat) (n : Int)
    (hinv : CacheInv s) (habs : findEntry k s.entries = none)
    (hM : n ≤ MAX_OBJECT_SIZE) (hlen : (v.length : Int) = n) :
    ∃ s', write_cache k v n s = some s' ∧
      (get_web_object k s').1 = some ⟨k, v, n⟩ := by
  have hvtake : v.take n.toNat = v := by
    rw [← hlen, Int.toNat_natCast, List.take_length]
  by_cases htrig : MAX_CACHE_SIZE < s.cache_size + n
  · obtain ⟨keep, evicted, _, _, _, heq, _, _⟩ :=
      write_cache_new_evict hinv habs htrig hM
    refine ⟨_, heq, ?_⟩
    rw [hvtake]
    unfold get_web_object
    rw [show findEntry k (⟨k, v, n⟩ :: keep) = some ⟨k, v, n⟩ from by
      rw [findEntry, if_pos rfl]]
  · rw [write_cache_new_no_evict habs (not_lt.mp htrig)]
    refine ⟨_, rfl, ?_⟩
    rw [hvtake]
    unfold get_web_object
    rw [show findEntry k (⟨k, v, n⟩ :: s.entries) = some ⟨k, v, n⟩ from by
      rw [findEntry, if_pos rfl]]

/-- C7 witness: inserting "k" ↦ [1, 2] into the empty store and looking it
up immediately returns exactly that entry. -/
theorem C7_witness :
    ∃ s', write_cache "k" [1, 2] 2 init_cache = some s' ∧
      (get_web_object "k" s').1 = some ⟨"k", [1, 2], 2⟩ :=
  C7_roundtrip init_cache "k" [1, 2] 2 init_cache_inv (by decide) (by decide) (by decide)

/-- C10: a lookup of an absent key returns nothing and leaves the store —
entries, values, sizes, order and cache_size — entirely unchanged
(get_web_object, cache.c:107-119, falls off the scan loop and returns
NULL without touching the list). -/
theorem C10_lookup_miss_is_noop (s : CacheState) (u : String)
    (h : findEntry u s.entries = none) :
    get_web_object u s = (none, s) := by
  unfold get_web_object
  rw [h]

/-- C10 witness: looking up the absent key "z" on a concrete one-entry
store returns none and the identical store. -/
theorem C10_witness :
    get_web_object "z" ⟨[⟨"a", [1], 1⟩], 1⟩ = (none, ⟨[⟨"a", [1], 1⟩], 1⟩) :=
  C10_lookup_miss_is_noop ⟨[⟨"a", [1], 1⟩], 1⟩ "z" (by decide)

lemma getStamp_cons (x u : String) (t : Int) (st : List (String × Int)) :
    getStamp ((x, t) :: st) u = if x = u then t else getStamp st u := rfl

lemma keysUnique_promote {u : String} {l : List Entry} {e : Entry}
    (hu : keysUnique l) (h : findEntry u l = some e) :
    keysUnique (e :: removeFirst u l) := by
  obtain ⟨pre, post, rfl, _, _, hrm⟩ := findEntry_some_decomp h
  unfold keysUnique at hu ⊢
  rw [hrm]
  exact hu.perm List.perm_middle
    (fun {a b} (hab : a.url ≠ b.url) hba => hab hba.symm)

lemma removeFirst_url_ne {u : String} {l : List Entry} {e : Entry}
    (hu : keysUnique l) (h : findEntry u l = some e) :
    ∀ x ∈ removeFirst u l, x.url ≠ u := by
  obtain ⟨pre, post, rfl, he, hpre, hrm⟩ := findEntry_some_decomp h
  rw [hrm]
  intro x hx
  rcases List.mem_append.mp hx with hx | hx
  · exact hpre x hx
  · have hp : List.Pairwise (fun a b => a.url ≠ b.url) (e :: post) :=
      (List.pairwise_append.mp hu).2.1
    have hne : e.url ≠ x.url := (List.pairwise_cons.mp hp).1 x hx
    intro hxu
    exact hne (by rw [hxu, he])

lemma removeFirst_sublist (u : String) (l : List Entry) :
    List.Sublist (removeFirst u l) l := by
  induction l with
  | nil => exact List.Sublist.refl []
  | cons a rest ih =>
    rw [removeFirst]
    by_cases ha : a.url = u
    · rw [if_pos ha]
      exact List.sublist_cons_self a rest
    · rw [if_neg ha]
      exact List.Sublist.cons₂ a ih

lemma runInv_promote {l : List Entry} {st : List (String × Int)} {c : Int}
    {u : String} {e : Entry} (hf : findEntry u l = some e)
    (hu : keysUnique l) (hbound : ∀ x ∈ l, getStamp st x.url < c)
    (hord : List.Pairwise (fun a b => getStamp st b.url < getStamp st a.url) l) :
    keysUnique (e :: removeFirst u l) ∧
      (∀ x ∈ e :: removeFirst u l, getStamp ((u, c) :: st) x.url < c + 1) ∧
      List.Pairwise
        (fun a b => getStamp ((u, c) :: st) b.url < getStamp ((u, c) :: st) a.url)
        (e :: removeFirst u l) := by
  have he : e.url = u := by
    obtain ⟨pre, post, _, he, _, _⟩ := findEntry_some_decomp hf
    exact he
  have hne := removeFirst_url_ne hu hf
  have hmem : ∀ x ∈ removeFirst u l, x ∈ l := fun x hx =>
    (promote_facts hf).2 x (List.mem_cons.mpr (Or.inr hx))
  have hstamp_e : getStamp ((u, c) :: st) e.url = c := by
    rw [getStamp_cons, if_pos he.symm]
  have hstamp_keep : ∀ x ∈ removeFirst u l, getStamp ((u, c) :: st) x.url = getStamp st x.url := by
    intro x hx
    rw [getStamp_cons, if_neg (fun hux => hne x hx hux.symm)]
  refine ⟨keysUnique_promote hu hf, ?_, ?_⟩
  · intro x hx
    rcases List.mem_cons.mp hx with rfl | hx
    · rw [hstamp_e]; linarith
    · rw [hstamp_keep x hx]
      have := hbound x (hmem x hx)
      linarith
  · rw [List.pairwise_cons]
    constructor
    · intro x hx
      rw [hstamp_e, hstamp_keep x hx]
      exact hbound x (hmem x hx)
    · have hsub := removeFirst_sublist u l
      have hp := hord.sublist hsub
      exact hp.imp_of_mem (fun ha hb hab => by
        rw [hstamp_keep _ ha, hstamp_keep _ hb]; exact hab)

lemma runInv_insert_new {l keep evicted : List Entry} {st : List (String × Int)}
    {c : Int} {u : String} {w : List Nat} {n : Int}
    (hf : findEntry u l = none) (hsplit : l = keep ++ evicted)
    (hu : keysUnique l) (hbound : ∀ x ∈ l, getStamp st x.url < c)
    (hord : List.Pairwise (fun a b => getStamp st b.url < getStamp st a.url) l) :
    keysUnique ((⟨u, w, n⟩ : Entry) :: keep) ∧
      (∀ x ∈ (⟨u, w, n⟩ : Entry) :: keep, getStamp ((u, c) :: st) x.url < c + 1) ∧
      List.Pairwise
        (fun a b => getStamp ((u, c) :: st) b.url < getStamp ((u, c) :: st) a.url)
        ((⟨u, w, n⟩ : Entry) :: keep) := by
  have hkeep_mem : ∀ x ∈ keep, x ∈ l := fun x hx => by
    rw [hsplit]; exact List.mem_append.mpr (Or.inl hx)
  have hkeep_sub : List.Sublist keep l := by
    rw [hsplit]; exact List.sublist_append_left keep evicted
  have hne : ∀ x ∈ keep, x.url ≠ u := fun x hx =>
    findEntry_none_forall hf x (hkeep_mem x hx)
  have hstamp_new : getStamp ((u, c) :: st) u = c := by
    rw [getStamp_cons, if_pos rfl]
  have hstamp_keep : ∀ x ∈ keep, getStamp ((u, c) :: st) x.url = getStamp st x.url := by
    intro x hx
    rw [getStamp_cons, if_neg (fun hux => hne x hx hux.symm)]
  refine ⟨?_, ?_, ?_⟩
  · rw [keysUnique, List.pairwise_cons]
    exact ⟨fun x hx => fun hh => hne x hx hh.symm, (hu.sublist hkeep_sub : _)⟩
  · intro x hx
    rcases List.mem_cons.mp hx with rfl | hx
    · show getStamp ((u, c) :: st) u < c + 1
      rw [hstamp_new]; linarith
    · rw [hstamp_keep x hx]
      have := hbound x (hkeep_mem x hx)
      linarith
  · rw [List.pairwise_cons]
    constructor
    · intro x hx
      show getStamp ((u, c) :: st) x.url < getStamp ((u, c) :: st) u
      rw [hstamp_new, hstamp_keep x hx]
      exact hbound x (hkeep_mem x hx)
    · have hp := hord.sublist hkeep_sub
      exact hp.imp_of_mem (fun ha hb hab => by
        rw [hstamp_keep _ ha, hstamp_keep _ hb]; exact hab)

lemma stepStamped_inv {r r' : Run} {op : Op} (hinv : RunInv r)
    (h : stepStamped r op = some r') : RunInv r' := by
  obtain ⟨hu, hbound, hord⟩ := hinv
  unfold stepStamped at h
  cases hap : applyOp r.cs op with
  | none => rw [hap] at h; cases h
  | some s' =>
    rw [hap] at h
    cases op with
    | lookup u =>
      rw [applyOp] at hap
      have hs' : (get_web_object u r.cs).2 = s' := by injection hap
      cases hf : findEntry u r.cs.entries with
      | none =>
        have hak : accessedKey r.cs (Op.lookup u) = none := by
          rw [accessedKey, hf]; rfl
        rw [hak] at h
        obtain rfl : (⟨s', r.stamps, r.clock + 1⟩ : Run) = r' := by injection h
        unfold get_web_object at hs'
        rw [hf] at hs'
        obtain rfl : r.cs = s' := hs'
        refine ⟨hu, ?_, hord⟩
        intro x hx
        have hb := hbound x hx
        show getStamp r.stamps x.url < r.clock + 1
        linarith
      | some e =>
        have hak : accessedKey r.cs (Op.lookup u) = some u := by
          rw [accessedKey, hf]; rfl
        rw [hak] at h
        obtain rfl : (⟨s', (u, r.clock) :: r.stamps, r.clock + 1⟩ : Run) = r' := by
          injection h
        unfold get_web_object at hs'
        rw [hf] at hs'
        obtain rfl : (⟨e :: removeFirst u r.cs.entries, r.cs.cache_size⟩ : CacheState) = s' :=
          hs'
        exact runInv_promote hf hu hbound hord
    | insert u v n =>
      rw [applyOp] at hap
      have hak : accessedKey r.cs (Op.insert u v n) = some u := rfl
      rw [hak] at h
      obtain rfl : (⟨s', (u, r.clock) :: r.stamps, r.clock + 1⟩ : Run) = r' := by
        injection h
      cases hf : findEntry u r.cs.entries with
      | some e =>
        unfold write_cache at hap
        rw [hf] at hap
        obtain rfl : (⟨e :: removeFirst u r.cs.entries, r.cs.cache_size⟩ : CacheState) = s' := by
          injection hap
        exact runInv_promote hf hu hbound hord
      | none =>
        unfold write_cache at hap
        rw [hf] at hap
        by_cases htrig : r.cs.cache_size + n > MAX_CACHE_SIZE
        · rw [if_pos htrig] at hap
          cases hev : evict_entries n r.cs with
          | none => rw [hev] at hap; cases hap
          | some s2 =>
            rw [hev] at hap
            obtain ⟨keep, evicted, hsplit, _, _, hs2, _, _⟩ := evict_entries_spec hev
            obtain rfl :
                (⟨(⟨u, v.take n.toNat, n⟩ : Entry) :: s2.entries,
                  s2.cache_size + n⟩ : CacheState) = s' := by injection hap
            rw [hs2]
            exact runInv_insert_new hf hsplit hu hbound hord
        · rw [if_neg htrig] at hap
          obtain rfl :
              (⟨(⟨u, v.take n.toNat, n⟩ : Entry) :: r.cs.entries,
                r.cs.cache_size + n⟩ : CacheState) = s' := by injection hap
          exact runInv_insert_new hf (List.append_nil r.cs.entries).symm hu hbound hord

lemma runStamped_inv :
    ∀ (ops : List Op) (r r' : Run), RunInv r → runStamped r ops = some r' → RunInv r' := by
  intro ops
  induction ops with
  | nil =>
    intro r r' hinv hr
    rw [runStamped] at hr
    obtain rfl : r = r' := by injection hr
    exact hinv
  | cons op ops ih =>
    intro r r' hinv hr
    rw [runStamped] at hr
    cases hst : stepStamped r op with
    | none => rw [hst] at hr; cases hr
    | some r1 =>
      rw [hst] at hr
      exact ih r1 r' (stepStamped_inv hinv hst) hr

lemma initRun_inv : RunInv initRun := by
  refine ⟨List.Pairwise.nil, ?_, List.Pairwise.nil⟩
  intro x hx
  cases hx

/-- C6: after every completed sequence of insert and lookup operations
from the empty store, the entry order exactly matches recency of last
access, most recent first: instrumenting each operation with a logical
clock (a lookup hit and any insert stamp their key with the current
time), the resulting entry list is strictly sorted by last-access stamp
in decreasing order. -/
theorem C6_lru_order (ops : List Op) (r : Run)
    (h : runStamped initRun ops = some r) :
    List.Pairwise
      (fun a b => getStamp r.stamps b.url < getStamp r.stamps a.url) r.cs.entries :=
  (runStamped_inv ops initRun r initRun_inv h).2.2

/-- C6 witness: after insert "a", insert "b", lookup "a", the store order
is [a, b] and the stamps decrease along it (a accessed at time 2, b at
time 1). -/
theorem C6_witness :
    List.Pairwise
      (fun a b =>
        getStamp [("a", 2), ("b", 1), ("a", 0)] b.url <
          getStamp [("a", 2), ("b", 1), ("a", 0)] a.url)
      [(⟨"a", [5], 1⟩ : Entry), ⟨"b", [6], 1⟩] :=
  C6_lru_order [Op.insert "a" [5] 1, Op.insert "b" [6] 1, Op.lookup "a"]
    ⟨⟨[⟨"a", [5], 1⟩, ⟨"b", [6], 1⟩], 2⟩, [("a", 2), ("b", 1), ("a", 0)], 3⟩ (by decide)

lemma enabledStep_mem_stepAll {s s' : Sys} {t : Nat}
    (h : enabledStep s t = some s') : s' ∈ stepAll s := by
  have ht : t < s.progs.length := by
    by_contra hge
    have hnone : s.progs.get? t = none := List.get?_eq_none.mpr (not_lt.mp hge)
    unfold enabledStep at h
    rw [hnone] at h
    cases h
  exact List.mem_filterMap.mpr ⟨t, List.mem_range.mpr ht, h⟩

lemma sysReach_mem_of_closed {s0 : Sys} {L : List Sys} (h0 : s0 ∈ L)
    (hc : ∀ x ∈ L, ∀ y ∈ stepAll x, y ∈ L) {s : Sys} (h : SysReach s0 s) :
    s ∈ L := by
  induction h with
  | refl => exact h0
  | step _ hstep ih => exact hc _ ih _ (enabledStep_mem_stepAll hstep)

/-- C9 (amended): lookup and insert each execute entirely inside the
cache_mutex critical section, and in every reachable interleaving of a
hit-serving handler and an inserting handler the two critical sections
never overlap — store operations are serialized.  (The original claim's
final clause is false: the hit's cached bytes are written to the client
AFTER the mutex is released, and a concurrent insert's eviction can free
the entry meanwhile — see the use-after-free counterexample.) -/
theorem C9_amended_mutual_exclusion (s : Sys) (h : SysReach sysAB s) : MutexOk s := by
  have hm : s ∈ reachAB := sysReach_mem_of_closed (by decide) (by decide) h
  have hall : ∀ x ∈ reachAB, MutexOk x := by decide
  exact hall s hm

/-- C9 amended witness: the initial two-handler system state satisfies
mutual exclusion. -/
theorem C9_amended_witness : MutexOk sysAB :=
  C9_amended_mutual_exclusion sysAB SysReach.refl

/-- C9 counterexample: consistency does NOT extend to the serving of a
hit.  In the three-handler system, handler 0 looks up "k" and releases
the mutex with a pointer to the entry; readers promote ten other entries;
an insert then evicts and frees "k" (and "j1"); when handler 0 finally
serves, its saved pointer names freed memory (uaf = true) — the cached
bytes being written to the client come from memory freed by a concurrent
insert, refuting the claim that every observer sees a consistent store
while a hit's bytes are being written. -/
theorem C9_counterexample_use_after_free :
    (execSched schedUAF sysUAF).map
        (fun s => (s.uaf, s.ptrs.get? 0, s.freedUrls.contains "k")) =
      some (true, some (some "k"), true) := by
  decide

lemma totalLen_cons (c : List Nat) (rest : List (List Nat)) :
    totalLen (c :: rest) = (c.length : Int) + totalLen rest := by
  simp [totalLen]

lemma totalLen_nonneg (chunks : List (List Nat)) : 0 ≤ totalLen chunks := by
  induction chunks with
  | nil => rfl
  | cons c rest ih =>
    rw [totalLen_cons]
    positivity

lemma hits_false_head {epipeAt : Option Nat} {i len : Nat}
    (h : hits epipeAt i (len + 1) = false) : epipeAt ≠ some i := by
  intro he
  rw [he, hits, decide_eq_false_iff_not] at h
  exact h ⟨Nat.le_refl i, by omega⟩

lemma hits_false_tail {epipeAt : Option Nat} {i len : Nat}
    (h : hits epipeAt i (len + 1) = false) : hits epipeAt (i + 1) len = false := by
  cases epipeAt with
  | none => rfl
  | some j =>
    rw [hits, decide_eq_false_iff_not] at h ⊢
    intro ⟨h1, h2⟩
    exact h ⟨by omega, by omega⟩

lemma hits_true_cases {epipeAt : Option Nat} {i len : Nat}
    (h : hits epipeAt i (len + 1) = true) :
    epipeAt = some i ∨ hits epipeAt (i + 1) len = true := by
  cases epipeAt with
  | none => cases h
  | some j =>
    rw [hits, decide_eq_true_eq] at h
    by_cases hj : j = i
    · exact Or.inl (by rw [hj])
    · refine Or.inr ?_
      rw [hits, decide_eq_true_eq]
      omega

lemma relay_no_epipe {epipeAt : Option Nat} {chunks : List (List Nat)} :
    ∀ {i : Nat} {sz : Int} {obj : List Nat},
      hits epipeAt i chunks.length = false →
      (relay epipeAt i sz obj chunks).relayed = chunks ∧
        (relay epipeAt i sz obj chunks).obj_size = sz + totalLen chunks ∧
        (relay epipeAt i sz obj chunks).epipe = false := by
  induction chunks with
  | nil =>
    intro i sz obj _
    refine ⟨rfl, ?_, rfl⟩
    show sz = sz + totalLen []
    rw [show totalLen [] = 0 from rfl, add_zero]
  | cons buf rest ih =>
    intro i sz obj h
    have hne : epipeAt ≠ some i := hits_false_head (by simpa using h)
    have htail : hits epipeAt (i + 1) rest.length = false :=
      hits_false_tail (by simpa using h)
    obtain ⟨ih1, ih2, ih3⟩ := @ih (i + 1) (sz + (buf.length : Int))
      (if sz + (buf.length : Int) ≤ MAX_OBJECT_SIZE then obj ++ buf else obj) htail
    rw [relay, if_neg hne]
    refine ⟨?_, ?_, ?_⟩
    · exact congrArg (fun x => buf :: x) ih1
    · exact ih2.trans (by rw [totalLen_cons]; ring)
    · exact ih3

lemma relay_object_full {epipeAt : Option Nat} {chunks : List (List Nat)} :
    ∀ {i : Nat} {sz : Int} {obj : List Nat},
      hits epipeAt i chunks.length = false → 0 ≤ sz →
      sz + totalLen chunks ≤ MAX_OBJECT_SIZE →
      (relay epipeAt i sz obj chunks).object = obj ++ chunks.flatten := by
  induction chunks with
  | nil =>
    intro i sz obj _ _ _
    show obj = obj ++ List.flatten []
    simp
  | cons buf rest ih =>
    intro i sz obj h hsz hfit
    have hne : epipeAt ≠ some i := hits_false_head (by simpa using h)
    have htail : hits epipeAt (i + 1) rest.length = false :=
      hits_false_tail (by simpa using h)
    rw [totalLen_cons] at hfit
    have hrest_nonneg := totalLen_nonneg rest
    have hcopy : sz + (buf.length : Int) ≤ MAX_OBJECT_SIZE := by linarith
    rw [relay, if_neg hne]
    show (relay epipeAt (i + 1) (sz + (buf.length : Int))
        (if sz + (buf.length : Int) ≤ MAX_OBJECT_SIZE then obj ++ buf else obj)
        rest).object = obj ++ (buf :: rest).flatten
    rw [if_pos hcopy, ih htail (by positivity) (by linarith)]
    simp

lemma relay_epipe {epipeAt : Option Nat} {chunks : List (List Nat)} :
    ∀ {i : Nat} {sz : Int} {obj : List Nat},
      hits epipeAt i chunks.length = true →
      (relay epipeAt i sz obj chunks).epipe = true := by
  induction chunks with
  | nil =>
    intro i sz obj h
    exfalso
    cases epipeAt with
    | none => cases h
    | some j =>
      rw [hits, decide_eq_true_eq] at h
      simp only [List.length_nil] at h
      omega
  | cons buf rest ih =>
    intro i sz obj h
    rcases hits_true_cases (by simpa using h) with hi | htail
    · rw [relay, if_pos hi]
    · rw [relay]
      by_cases hi : epipeAt = some i
      · rw [if_pos hi]
      · rw [if_neg hi]
        show (relay epipeAt (i + 1) _ _ rest).epipe = true
        exact ih htail

/-- C8: the dispatcher caches exactly on a clean, within-bound relay.  For
every origin fetch (modelled by the connect success flag, the list of
chunks rio_readnb delivers, and the index, if any, where the client write
fails with EPIPE): write_cache is called iff the connection succeeded, no
EPIPE break occurred, and the total response size is within
MAX_OBJECT_SIZE; when it is called, the cached bytes are exactly the full
response body with its exact total length; an oversized response is still
relayed to the client in full (when no EPIPE occurs); and a connect
failure relays nothing and caches nothing. -/
theorem C8_caching_condition (connectOk : Bool) (chunks : List (List Nat))
    (epipeAt : Option Nat) :
    ((connect_server connectOk chunks epipeAt).cached.isSome = true ↔
      (connectOk = true ∧ epipeTriggered chunks epipeAt = false ∧
        totalLen chunks ≤ MAX_OBJECT_SIZE)) ∧
    (connectOk = true → epipeTriggered chunks epipeAt = false →
      (connect_server connectOk chunks epipeAt).relayed = chunks ∧
      (totalLen chunks ≤ MAX_OBJECT_SIZE →
        (connect_server connectOk chunks epipeAt).cached =
          some (chunks.flatten, totalLen chunks))) ∧
    (connectOk = false → connect_server connectOk chunks epipeAt = ⟨[], none⟩) := by
  cases connectOk with
  | false =>
    refine ⟨?_, ?_, ?_⟩
    · rw [connect_server, if_pos rfl]
      simp
    · intro h; cases h
    · intro _; rw [connect_server, if_pos rfl]
  | true =>
    have hcs : connect_server true chunks epipeAt =
        ⟨(relay epipeAt 0 0 [] chunks).relayed,
          if (relay epipeAt 0 0 [] chunks).obj_size ≤ MAX_OBJECT_SIZE ∧
              (relay epipeAt 0 0 [] chunks).epipe = false then
            some ((relay epipeAt 0 0 [] chunks).object,
              (relay epipeAt 0 0 [] chunks).obj_size)
          else none⟩ := by
      rw [connect_server, if_neg (by simp)]
    by_cases hep : epipeTriggered chunks epipeAt = true
    · have hflag := @relay_epipe epipeAt chunks 0 0 ([] : List Nat) hep
      refine ⟨?_, ?_, ?_⟩
      · rw [hcs]
        constructor
        · intro hsome
          exfalso
          rw [if_neg (fun hcond => by rw [hflag] at hcond; cases hcond.2)] at hsome
          cases hsome
        · intro ⟨_, hnoep, _⟩
          rw [hep] at hnoep
          cases hnoep
      · intro _ hnoep
        rw [hep] at hnoep
        cases hnoep
      · intro h; cases h
    · have hnoep : epipeTriggered chunks epipeAt = false := by
        cases hh : epipeTriggered chunks epipeAt with
        | false => rfl
        | true => exact absurd hh hep
      obtain ⟨hrel, hsz0, hflag⟩ :=
        @relay_no_epipe epipeAt chunks 0 0 ([] : List Nat) hnoep
      have hsz : (relay epipeAt 0 0 [] chunks).obj_size = totalLen chunks := by
        rw [hsz0]; ring
      refine ⟨?_, ?_, ?_⟩
      · rw [hcs]
        constructor
        · intro hsome
          refine ⟨rfl, hnoep, ?_⟩
          by_cases hcond : (relay epipeAt 0 0 [] chunks).obj_size ≤ MAX_OBJECT_SIZE ∧
              (relay epipeAt 0 0 [] chunks).epipe = false
          · rw [← hsz]; exact hcond.1
          · rw [if_neg hcond] at hsome
            cases hsome
        · intro ⟨_, _, hfit⟩
          rw [if_pos ⟨by rw [hsz]; exact hfit, hflag⟩]
          rfl
      · intro _ _
        constructor
        · rw [hcs]; exact hrel
        · intro hfit
          rw [hcs, if_pos ⟨by rw [hsz]; exact hfit, hflag⟩]
          have hobj := @relay_object_full epipeAt chunks 0 0 ([] : List Nat)
            hnoep (le_refl 0) (by linarith)
          rw [hobj, hsz]
          simp
      · intro h; cases h

/-- C8 witness: a successful two-chunk fetch (sizes 1 and 2, within
MAX_OBJECT_SIZE, no EPIPE) relays both chunks and caches the full body of
length 3. -/
theorem C8_witness :
    (connect_server true [[1], [2, 3]] none).relayed = [[1], [2, 3]] ∧
      (connect_server true [[1], [2, 3]] none).cached =
        some (([[1], [2, 3]] : List (List Nat)).flatten, totalLen [[1], [2, 3]]) :=
  ⟨((C8_caching_condition true [[1], [2, 3]] none).2.1 rfl (by decide)).1,
    ((C8_caching_condition true [[1], [2, 3]] none).2.1 rfl (by decide)).2 (by decide)⟩

end ProxyLab
